import Mathlib

/-!
Verification of the py-nix-shell expression/cache subsystem.

This file gives a shallow embedding of the parts of the repository that the
verified properties talk about:

* `src/nix_shell/build.py` — `NixBuild._get_build_id` / `NixBuild.build_id`
  (the build-identity fingerprint) and `NixShell.activate` / `LIST_LIKE_VARS`
  (environment merging);
* `src/nix_shell/cache.py` — `CacheHistory` (`_load`, `push`, `get`, `lookup`,
  `peek`, `_cleanup_entry`);
* `src/nix_shell/dsl/core.py` — `dumps` / `_attrset` / `_str`
  (the Nix expression serializer).

Machine-level notes on the embedding:

* Python byte strings are modelled as `List Nat` (one `Nat` per byte);
  `str.encode()` is modelled by an explicit UTF-8 encoder.
* `hashlib.md5` is a stream hash: `h.update(b₁); …; h.update(bₙ); h.hexdigest()`
  equals the digest of the concatenation `b₁ ++ … ++ bₙ`.  The digest function
  itself is an opaque parameter `digest : List Nat → String`; every property
  proved here holds for an arbitrary digest function, which is exactly the
  content of the determinism/collision claims (they never rely on MD5's
  internals).
* The file system is modelled as a total map from path to byte contents for
  hashing (the hashed files are assumed readable; a missing file raises in
  Python and is outside the verified claims), and as the set of existing paths
  for the cache store's artifact files.
-/

/-! ## Python string and tuple ordering

Python compares `str` values lexicographically by Unicode code point and
2-tuples lexicographically component-wise.  `String`'s built-in order in Lean
is not kernel-reducible, so we model the comparison directly on `List Char`.
-/

/-- Python `s < t` on lists of characters: lexicographic by code point. -/
def pyCharsLt : List Char → List Char → Bool
  | _, [] => false
  | [], _ :: _ => true
  | a :: as, b :: bs => if a = b then pyCharsLt as bs else decide (a.toNat < b.toNat)

/-- Python `s < t` on strings. -/
def pyStrLt (s t : String) : Bool := pyCharsLt s.data t.data

/-- Python `a <= b` on pairs of strings (lexicographic tuple comparison),
as used by `sorted()` on the `(name, path)` include mappings. -/
def pairLe (a b : String × String) : Bool :=
  pyStrLt a.1 b.1 || (a.1 == b.1 && (pyStrLt a.2 b.2 || a.2 == b.2))

/-- The sorting relation for include mappings, as a `Prop`. -/
def IncludeLe (a b : String × String) : Prop := pairLe a b = true

instance : DecidableRel IncludeLe :=
  fun a b => inferInstanceAs (Decidable (pairLe a b = true))

/-- Python `sorted(...)` on the include mappings (`build.py` line 142).
Python's sort is stable and total orders admit a unique sorted permutation,
so a stable insertion sort by `<=` is extensionally the same function. -/
def sortIncludes (l : List (String × String)) : List (String × String) :=
  List.insertionSort IncludeLe l

/-! ## Byte strings -/

/-- UTF-8 encoding of a single character (Python `str.encode()`), one `Nat`
per byte. -/
def utf8EncodeChar (c : Char) : List Nat :=
  let n := c.toNat
  if n < 0x80 then [n]
  else if n < 0x800 then
    [0xC0 ||| (n >>> 6), 0x80 ||| (n &&& 0x3F)]
  else if n < 0x10000 then
    [0xE0 ||| (n >>> 12), 0x80 ||| ((n >>> 6) &&& 0x3F), 0x80 ||| (n &&& 0x3F)]
  else
    [0xF0 ||| (n >>> 18), 0x80 ||| ((n >>> 12) &&& 0x3F),
     0x80 ||| ((n >>> 6) &&& 0x3F), 0x80 ||| (n &&& 0x3F)]

/-- UTF-8 encoding of a string, Python `s.encode()`. -/
def utf8Bytes (s : String) : List Nat := s.data.flatMap utf8EncodeChar

/-! ## Chunked file reads

`_get_build_id` reads files with `f.read(256)` (the `file` parameter) and
`f.read(65536)` (include files) in a loop, feeding each chunk to the hash.
We model the chunk sequence; fuel makes the recursion structural so that the
kernel can evaluate it. -/

/-- Split `l` into chunks of at most `k` bytes (`k > 0` at both call sites);
`fuel` bounds the recursion depth and is sufficient whenever
`l.length ≤ fuel`. -/
def chunksOfFuel (k : Nat) : Nat → List Nat → List (List Nat)
  | 0, _ => []
  | _, [] => []
  | fuel + 1, x :: xs => (x :: xs.take (k - 1)) :: chunksOfFuel k fuel (xs.drop (k - 1))

/-- The sequence of chunks returned by repeated `f.read(k)` on contents `l`. -/
def chunksOf (k : Nat) (l : List Nat) : List (List Nat) := chunksOfFuel k l.length l

/-! ## Build parameters and the build-identity feed (`build.py` 119–157) -/

/-- The file system as seen by the hashing code: path → byte contents. -/
abbrev FileSystem := String → List Nat

/-- The fields of `cli.NixBuildArgs` that `_get_build_id` consumes.
`none` models an absent key (`params.get(k)` returning the default).
The `include` parameter of the source is named `includes` here because
`include` is a Lean keyword. -/
structure BuildParams where
  file : Option String := none
  installable : Option String := none
  ref : Option String := none
  expr : Option String := none
  impure : Bool := false
  includes : List (String × String) := []
deriving DecidableEq

/-- The sequence of `h.update(...)` calls performed by
`NixBuild._get_build_id`, in source order:

1. `b"impure"` or `b"pure"`;
2. if `params["file"]` is set, its contents in 256-byte chunks;
3. for each include `(name, path)` in `sorted(...)` order, `name.encode()`
   followed by the contents of `path` in 65536-byte chunks;
4. `installable`/`ref`/`expr`, each replaced by the placeholder
   `"no-installable"`/`"no-ref"`/`"no-expr"` when absent. -/
def buildIdUpdates (p : BuildParams) (fs : FileSystem) : List (List Nat) :=
  [if p.impure then utf8Bytes "impure" else utf8Bytes "pure"]
    ++ (match p.file with
        | some f => chunksOf 256 (fs f)
        | none => [])
    ++ (sortIncludes p.includes).flatMap
        (fun nv => [utf8Bytes nv.1] ++ chunksOf 65536 (fs nv.2))
    ++ [utf8Bytes (p.installable.getD "no-installable"),
        utf8Bytes (p.ref.getD "no-ref"),
        utf8Bytes (p.expr.getD "no-expr")]

/-- The full byte stream fed to the MD5 state: concatenation of all updates. -/
def buildIdFeed (p : BuildParams) (fs : FileSystem) : List Nat :=
  (buildIdUpdates p fs).flatten

/-- `NixBuild._get_build_id`: the hex digest of the feed, for an arbitrary
stream-digest function `digest`. -/
def getBuildId (digest : List Nat → String) (p : BuildParams) (fs : FileSystem) : String :=
  digest (buildIdFeed p fs)

/-- The per-instance state of a `NixBuild`: its parameters plus the
memoization slot that `@cached_property build_id` stores its result in. -/
structure NixBuildState where
  params : BuildParams
  cachedId : Option String := none
deriving DecidableEq

/-- Reading `build.build_id` (`@cached_property`): returns the cached digest
if present, otherwise computes `_get_build_id` against the current file
system and stores it. -/
def readBuildId (digest : List Nat → String) (b : NixBuildState) (fs : FileSystem) :
    String × NixBuildState :=
  match b.cachedId with
  | some s => (s, b)
  | none =>
    let s := getBuildId digest b.params fs
    (s, { b with cachedId := some s })

/-! ## Cache history store (`cache.py` 84–232)

Timestamps (`time.time()`) are modelled as `Nat`, passed in by the caller as
`now`; files on disk are modelled as the list of existing paths; the alias
dictionary as an association list with unique keys (lookups take the first
match, insertion replaces the binding in place, exactly like `dict`). -/

/-- `CacheHistoryEntry` (`cache.py` 84–90). -/
structure CacheHistoryEntry where
  build_id : String
  timestamp : Nat
  json_path : String
  profile_path : String
deriving DecidableEq

/-- `dict.get` on the alias mapping: first binding of the key, if any. -/
def aliasGet : List (String × String) → String → Option String
  | [], _ => none
  | kv :: rest, k => if kv.1 == k then some kv.2 else aliasGet rest k

/-- `d[k] = v` on a Python dict: replace the binding in place, or append. -/
def aliasSet : List (String × String) → String → String → List (String × String)
  | [], k, v => [(k, v)]
  | kv :: rest, k, v => if kv.1 == k then (k, v) :: rest else kv :: aliasSet rest k v

/-- Creating (or overwriting) a file at `p`: the path becomes existing. -/
def addFile (fs : List String) (p : String) : List String :=
  if p ∈ fs then fs else fs ++ [p]

/-- `Path.unlink` guarded by `Path.exists` (`_cleanup_entry`): removing a
path is a no-op when it is already missing. -/
def removeFile (fs : List String) (p : String) : List String :=
  fs.filter (fun q => q != p)

/-- `CacheHistory._cleanup_entry` (`cache.py` 218–232): delete the entry's
two backing files, tolerating already-missing files. -/
def cleanupEntry (fs : List String) (e : CacheHistoryEntry) : List String :=
  removeFile (removeFile fs e.json_path) e.profile_path

/-- The alias-cleanup step of `push`, run for each evicted entry:
`{k: v for k, v in self._aliases.items() if v != old_entry["build_id"]}`. -/
def aliasCleanupStep (al : List (String × String)) (e : CacheHistoryEntry) :
    List (String × String) :=
  al.filter (fun kv => kv.2 != e.build_id)

/-- Keys of an alias dict are pairwise distinct (true of every Python dict). -/
abbrev KeysNodup (al : List (String × String)) : Prop := (al.map Prod.fst).Nodup

/-- The state of a `CacheHistory` plus the directory the cache files live in
(`history_file.parent`) and the file system it mutates. -/
structure CacheHistory where
  dir : String
  max_history : Nat
  entries : List CacheHistoryEntry
  aliases : List (String × String)
  files : List String
deriving DecidableEq

/-- The sort relation of `self._entries.sort(key=..., reverse=True)`:
descending by timestamp (stable, like Python's sort). -/
def EntryRecentFirst (a b : CacheHistoryEntry) : Prop := b.timestamp ≤ a.timestamp

instance : DecidableRel EntryRecentFirst :=
  fun a b => inferInstanceAs (Decidable (b.timestamp ≤ a.timestamp))

/-- `self._entries.sort(key=lambda x: x["timestamp"], reverse=True)`. -/
def sortEntries (l : List CacheHistoryEntry) : List CacheHistoryEntry :=
  List.insertionSort EntryRecentFirst l

/-- `CacheHistory.push` (`cache.py` 140–187), returning the new state and the
list of evicted entries (`old_entries`).  `bid` is `build.build_id`;
`build.save_json`/`build.save_link` create the two artifact files. -/
def CacheHistory.pushFull (st : CacheHistory) (bid : String)
    (cache_key : Option String) (now : Nat) : CacheHistory × List CacheHistoryEntry :=
  let file_key := cache_key.getD bid
  let json_path := st.dir ++ "/" ++ file_key ++ ".json"
  let profile_path := st.dir ++ "/" ++ file_key ++ "-profile"
  let files := addFile (addFile st.files json_path) profile_path
  let entry : CacheHistoryEntry :=
    { build_id := bid, timestamp := now, json_path := json_path, profile_path := profile_path }
  let aliases := match cache_key with
    | some k => aliasSet st.aliases k bid
    | none => st.aliases
  let entries := (st.entries.filter (fun e => e.build_id != bid)) ++ [entry]
  let entries := sortEntries entries
  let kept := entries.take st.max_history
  let old := entries.drop st.max_history
  let files := old.foldl cleanupEntry files
  let aliases := old.foldl aliasCleanupStep aliases
  ({ st with entries := kept, aliases := aliases, files := files }, old)

/-- `CacheHistory.push`: the state after a push. -/
def CacheHistory.push (st : CacheHistory) (bid : String)
    (cache_key : Option String) (now : Nat) : CacheHistory :=
  (st.pushFull bid cache_key now).1

/-- The entries evicted by a push (`old_entries` in the source). -/
def CacheHistory.pushEvicted (st : CacheHistory) (bid : String)
    (cache_key : Option String) (now : Nat) : List CacheHistoryEntry :=
  (st.pushFull bid cache_key now).2

/-- The entry that `push` constructs (named copy of `pushFull`'s `entry`
binding, for use in the statements below). -/
def pushEntry (st : CacheHistory) (bid : String) (cache_key : Option String)
    (now : Nat) : CacheHistoryEntry :=
  let file_key := cache_key.getD bid
  { build_id := bid, timestamp := now,
    json_path := st.dir ++ "/" ++ file_key ++ ".json",
    profile_path := st.dir ++ "/" ++ file_key ++ "-profile" }

/-- The full sorted entry list that `push` builds before truncation (named
copy of `pushFull`'s second `entries` binding). -/
def pushSorted (st : CacheHistory) (bid : String) (cache_key : Option String)
    (now : Nat) : List CacheHistoryEntry :=
  sortEntries
    ((st.entries.filter (fun e => e.build_id != bid)) ++ [pushEntry st bid cache_key now])

/-- The scan shared by `get` and `lookup`: find the first entry with the
given `build_id`, refresh its timestamp to `now` in place (note: without
re-sorting), and return it. -/
def touchFirst (bid : String) (now : Nat) :
    List CacheHistoryEntry → Option CacheHistoryEntry × List CacheHistoryEntry
  | [] => (none, [])
  | e :: es =>
    if e.build_id == bid then
      (some { e with timestamp := now }, { e with timestamp := now } :: es)
    else
      let r := touchFirst bid now es
      (r.1, e :: r.2)

/-- `CacheHistory.get` (`cache.py` 189–198): look up by the build's own id. -/
def CacheHistory.get (st : CacheHistory) (bid : String) (now : Nat) :
    Option CacheHistoryEntry × CacheHistory :=
  let r := touchFirst bid now st.entries
  (r.1, { st with entries := r.2 })

/-- `CacheHistory.lookup` (`cache.py` 200–210): resolve the key through the
alias mapping (falling back to the key itself), then scan. -/
def CacheHistory.lookup (st : CacheHistory) (cache_key : String) (now : Nat) :
    Option CacheHistoryEntry × CacheHistory :=
  let bid := (aliasGet st.aliases cache_key).getD cache_key
  let r := touchFirst bid now st.entries
  (r.1, { st with entries := r.2 })

/-- `CacheHistory.peek` (`cache.py` 212–216): head of the entry list. -/
def CacheHistory.peek (st : CacheHistory) : Option CacheHistoryEntry :=
  st.entries.head?

/-- A fresh store: `__init__` before `_load`, over an empty cache dir. -/
def CacheHistory.initial (dir : String) (max_history : Nat) : CacheHistory :=
  { dir := dir, max_history := max_history, entries := [], aliases := [], files := [] }

/-- States reachable from a fresh store through `push` alone. -/
inductive CacheHistory.Reachable (dir : String) (N : Nat) : CacheHistory → Prop
  | init : CacheHistory.Reachable dir N (CacheHistory.initial dir N)
  | push (st : CacheHistory) (bid : String) (ck : Option String) (now : Nat) :
      CacheHistory.Reachable dir N st →
      CacheHistory.Reachable dir N (st.push bid ck now)

/-! ## Loading the history file (`CacheHistory._load`, `cache.py` 111–129)

The parse layer is abstracted into the outcomes the code distinguishes:
file absent; `json.load` raising `JSONDecodeError`; a JSON list (legacy
schema); a JSON object (current schema, whose `entries`/`aliases` keys may
each be absent); or a JSON scalar (valid JSON that is neither list nor
object — on which the Python code would raise `AttributeError` at
`data.get`, an exception the `except` clause does not catch). -/

inductive HistoryFileContent where
  | absent
  | unparseable
  | jsonList (entries : List CacheHistoryEntry)
  | jsonObject (entries : Option (List CacheHistoryEntry))
               (aliases : Option (List (String × String)))
  | jsonScalar
deriving DecidableEq

/-- `CacheHistory._load`: the resulting `(entries, aliases)` state, or `none`
when the code raises. -/
def loadHistory : HistoryFileContent →
    Option (List CacheHistoryEntry × List (String × String))
  | .absent => some ([], [])
  | .unparseable => some ([], [])
  | .jsonList es => some (es, [])
  | .jsonObject es al => some (es.getD [], al.getD [])
  | .jsonScalar => none

/-! ## Environment activation (`build.py` 211–224 and 293–299) -/

/-- `LIST_LIKE_VARS` (`build.py` 211–224), verbatim. -/
def LIST_LIKE_VARS : List String :=
  ["PATH", "LD_LIBRARY_PATH", "PYTHONPATH", "CLASSPATH", "PKG_CONFIG_PATH",
   "MANPATH", "INFOPATH", "XDG_DATA_DIRS", "XDG_CONFIG_DIRS", "CDPATH",
   "FPATH", "MAILPATH"]

/-- One iteration of the loop in `NixShell.activate`: for the captured pair
`kv`, prepend with a `":"` separator when the name is path-like and already
present in `os.environ` (modelled, like the aliases, as a Python dict:
an association list read by `aliasGet` and written by `aliasSet`), otherwise
overwrite outright. -/
def activateStep (environ : List (String × String)) (kv : String × String) :
    List (String × String) :=
  if kv.1 ∈ LIST_LIKE_VARS then
    match aliasGet environ kv.1 with
    | some old => aliasSet environ kv.1 (kv.2 ++ ":" ++ old)
    | none => aliasSet environ kv.1 kv.2
  else aliasSet environ kv.1 kv.2

/-- `NixShell.activate`: fold the captured environment `env` into the process
environment `environ`, item by item. -/
def activate (env environ : List (String × String)) : List (String × String) :=
  env.foldl activateStep environ

/-! ## The expression serializer (`dsl/core.py`)

`NixExpr` is the tagged union behind the Python type union
`bool | str | int | float | dict | list | Tuple | NixComplexType | None`.
Numbers are modelled as `Int` (Python renders both `int` and `float` with
`str(n)`; only integers appear in the verified claims).  A `Tuple`
(function application) is modelled with its head and tail split, since the
Python code indexes `n[0]` (an empty tuple would raise `IndexError`).
A `NixComplexType` delegates to its own `dumps`; it is carried here as the
string that delegation returns. -/

inductive NixExpr where
  | bool (b : Bool)
  | null
  | num (n : Int)
  | str (s : String)
  | attrs (d : List (String × NixExpr))
  | list (l : List NixExpr)
  | app (f : NixExpr) (args : List NixExpr)
  | complex (dumped : String)

/-- The characters at which `str.splitlines` ends a line (CPython's
line-boundary set): LF `0x0A`, VT `0x0B`, FF `0x0C`, CR `0x0D`, FS `0x1C`,
GS `0x1D`, RS `0x1E`, NEL `0x85`, LINE SEPARATOR `U+2028` and PARAGRAPH
SEPARATOR `U+2029`. -/
def pyIsLineBreak (c : Char) : Bool :=
  c.toNat == 0x0A || c.toNat == 0x0B || c.toNat == 0x0C || c.toNat == 0x0D ||
  c.toNat == 0x1C || c.toNat == 0x1D || c.toNat == 0x1E || c.toNat == 0x85 ||
  c.toNat == 0x2028 || c.toNat == 0x2029

/-- `str.splitlines(keepends=True)` as used by `textwrap.indent` (helper:
the accumulator holds the current line, reversed).  A `"\r\n"` pair counts
as a single line ending; every other line-break character ends a line by
itself. -/
def splitKeepEndsAux : List Char → List Char → List (List Char)
  | [], acc => if acc.isEmpty then [] else [acc.reverse]
  | '\r' :: '\n' :: cs, acc =>
    ('\n' :: '\r' :: acc).reverse :: splitKeepEndsAux cs []
  | c :: cs, acc =>
    if pyIsLineBreak c then (c :: acc).reverse :: splitKeepEndsAux cs []
    else splitKeepEndsAux cs (c :: acc)

/-- `s.splitlines(True)` on a string. -/
def splitLinesKeepEnds (s : String) : List (List Char) :=
  splitKeepEndsAux s.data []

/-- The whitespace set consumed by `str.strip()` (CPython's
`Py_UNICODE_ISSPACE`): the ASCII whitespace `0x09`–`0x0D` and `0x20`, the
separator controls `0x1C`–`0x1F`, NEL `0x85`, NO-BREAK SPACE `0xA0`, OGHAM
SPACE MARK `0x1680`, the `Zs` spaces `U+2000`–`U+200A`, LINE and PARAGRAPH
SEPARATOR, NARROW NO-BREAK SPACE `U+202F`, MEDIUM MATHEMATICAL SPACE
`U+205F` and IDEOGRAPHIC SPACE `U+3000`. -/
def pyIsSpace (c : Char) : Bool :=
  (decide (0x09 ≤ c.toNat) && decide (c.toNat ≤ 0x0D)) ||
  (decide (0x1C ≤ c.toNat) && decide (c.toNat ≤ 0x1F)) ||
  c.toNat == 0x20 || c.toNat == 0x85 || c.toNat == 0xA0 || c.toNat == 0x1680 ||
  (decide (0x2000 ≤ c.toNat) && decide (c.toNat ≤ 0x200A)) ||
  c.toNat == 0x2028 || c.toNat == 0x2029 || c.toNat == 0x202F ||
  c.toNat == 0x205F || c.toNat == 0x3000

/-- `textwrap.indent(s, pre)`: add `pre` to every line that holds at least
one non-whitespace character (lines that are empty or all-whitespace are
left untouched — `textwrap.indent`'s default predicate is
`line.strip()`). -/
def textwrapIndent (pre : String) (s : String) : String :=
  String.mk ((splitLinesKeepEnds s).flatMap
    (fun l => if l.any (fun c => !pyIsSpace c) then pre.data ++ l else l))

/-- `_indent` (`dsl/core.py` line 12). -/
def nixIndentUnit : String := "  "

/-- `_str` (`dsl/core.py` 86–92): raw-block form when the string holds a
newline or a double quote, plain double-quoted literal otherwise. -/
def nixStr (s : String) : String :=
  if s.data.contains '\n' || s.data.contains '"' then
    "''\n" ++ textwrapIndent nixIndentUnit s ++ "\n''"
  else
    "\"" ++ s ++ "\""

mutual

/-- `dumps` (`dsl/core.py` 56–76), by cases on the node kind. -/
def dumps : NixExpr → String
  | .bool true => "true"
  | .bool false => "false"
  | .null => "null"
  | .num n => toString n
  | .str s => nixStr s
  | .attrs d => "\x7b " ++ String.intercalate " " (dumpsPairs d) ++ " \x7d"
  | .list l => "[ " ++ String.intercalate " " (dumpsList l) ++ " ]"
  | .app f args => "(" ++ String.intercalate " " (dumps f :: dumpsList args) ++ ")"
  | .complex s => s

/-- `[dumps(x) for x in n]`. -/
def dumpsList : List NixExpr → List String
  | [] => []
  | x :: xs => dumps x :: dumpsList xs

/-- `[f"{key} = {dumps(value)};" for key, value in d.items()]` (`_attrset`). -/
def dumpsPairs : List (String × NixExpr) → List String
  | [] => []
  | (k, v) :: xs => (k ++ " = " ++ dumps v ++ ";") :: dumpsPairs xs

end

/-! ## Helper lemmas: chunked reads reassemble to the full contents -/

theorem chunksOfFuel_flatten (k fuel : Nat) (l : List Nat) (h : l.length ≤ fuel) :
    (chunksOfFuel k fuel l).flatten = l := by
  induction fuel generalizing l with
  | zero =>
    have hl : l = [] := by cases l <;> simp_all
    simp [hl, chunksOfFuel]
  | succ n ih =>
    cases l with
    | nil => simp [chunksOfFuel]
    | cons x xs =>
      simp only [chunksOfFuel, List.flatten_cons]
      rw [ih]
      · simp [List.take_append_drop]
      · simp at h ⊢
        omega

/-- Reading a file in bounded chunks feeds exactly its byte contents. -/
theorem chunksOf_flatten (k : Nat) (l : List Nat) : (chunksOf k l).flatten = l :=
  chunksOfFuel_flatten k l.length l (Nat.le_refl _)

/-! ## Helper lemmas: the Python ordering is a linear order -/

theorem pyCharsLt_irrefl (l : List Char) : pyCharsLt l l = false := by
  induction l with
  | nil => rfl
  | cons a as ih => simp [pyCharsLt, ih]

theorem pyCharsLt_asymm : ∀ {a b : List Char},
    pyCharsLt a b = true → pyCharsLt b a = false
  | [], [], h => by simp [pyCharsLt] at h
  | [], _ :: _, _ => rfl
  | _ :: _, [], h => by simp [pyCharsLt] at h
  | a :: as, b :: bs, h => by
    by_cases hab : a = b
    · subst hab
      simp only [pyCharsLt, if_pos rfl] at h ⊢
      exact pyCharsLt_asymm h
    · simp only [pyCharsLt, if_neg hab, decide_eq_true_eq] at h
      have hba : b ≠ a := fun e => hab e.symm
      simp only [pyCharsLt, if_neg hba, decide_eq_false_iff_not]
      exact Nat.lt_asymm h

theorem pyCharsLt_eq_of_both_false : ∀ {a b : List Char},
    pyCharsLt a b = false → pyCharsLt b a = false → a = b
  | [], [], _, _ => rfl
  | [], b :: bs, h, _ => by
    rw [show pyCharsLt [] (b :: bs) = true from rfl] at h
    exact absurd h (by decide)
  | a :: as, [], _, h' => by
    rw [show pyCharsLt [] (a :: as) = true from rfl] at h'
    exact absurd h' (by decide)
  | a :: as, b :: bs, h, h' => by
    by_cases hab : a = b
    · subst hab
      simp only [pyCharsLt, if_pos rfl] at h h'
      exact congrArg _ (pyCharsLt_eq_of_both_false h h')
    · have hba : b ≠ a := fun e => hab e.symm
      simp only [pyCharsLt, if_neg hab, if_neg hba, decide_eq_false_iff_not] at h h'
      exact absurd
        (Char.ext (UInt32.toNat.inj
          (Nat.le_antisymm (Nat.le_of_not_lt h') (Nat.le_of_not_lt h))))
        hab

theorem pyCharsLt_trans : ∀ {a b c : List Char},
    pyCharsLt a b = true → pyCharsLt b c = true → pyCharsLt a c = true
  | _, [], _, h1, _ => by simp [pyCharsLt] at h1
  | _, _ :: _, [], _, h2 => by simp [pyCharsLt] at h2
  | [], b :: bs, c :: cs, _, _ => rfl
  | a :: as, b :: bs, c :: cs, h1, h2 => by
    by_cases hab : a = b <;> by_cases hbc : b = c
    · subst hab
      subst hbc
      simp only [pyCharsLt, if_pos rfl] at h1 h2 ⊢
      exact pyCharsLt_trans h1 h2
    · subst hab
      simp only [pyCharsLt, if_neg hbc, decide_eq_true_eq] at h2
      simp only [pyCharsLt, if_neg hbc, decide_eq_true_eq]
      exact h2
    · subst hbc
      simp only [pyCharsLt, if_neg hab, decide_eq_true_eq] at h1
      simp only [pyCharsLt, if_neg hab, decide_eq_true_eq]
      exact h1
    · simp only [pyCharsLt, if_neg hab, decide_eq_true_eq] at h1
      simp only [pyCharsLt, if_neg hbc, decide_eq_true_eq] at h2
      have hac : a ≠ c := fun e => absurd (e ▸ h1) (Nat.lt_asymm h2)
      simp only [pyCharsLt, if_neg hac, decide_eq_true_eq]
      exact Nat.lt_trans h1 h2

theorem pyStrLt_irrefl (s : String) : pyStrLt s s = false := pyCharsLt_irrefl _

theorem pyStrLt_asymm {s t : String} (h : pyStrLt s t = true) : pyStrLt t s = false :=
  pyCharsLt_asymm h

theorem pyStrLt_eq_of_both_false {s t : String}
    (h : pyStrLt s t = false) (h' : pyStrLt t s = false) : s = t :=
  congrArg String.mk (pyCharsLt_eq_of_both_false h h')

theorem pyStrLt_trans {s t u : String}
    (h : pyStrLt s t = true) (h' : pyStrLt t u = true) : pyStrLt s u = true :=
  pyCharsLt_trans h h'

theorem pyStrLt_trichotomy (s t : String) :
    pyStrLt s t = true ∨ s = t ∨ pyStrLt t s = true := by
  cases h : pyStrLt s t
  · cases h' : pyStrLt t s
    · exact Or.inr (Or.inl (pyStrLt_eq_of_both_false h h'))
    · exact Or.inr (Or.inr rfl)
  · exact Or.inl rfl

theorem includeLe_iff (a b : String × String) :
    IncludeLe a b ↔
      pyStrLt a.1 b.1 = true ∨ (a.1 = b.1 ∧ (pyStrLt a.2 b.2 = true ∨ a.2 = b.2)) := by
  simp [IncludeLe, pairLe, Bool.or_eq_true, Bool.and_eq_true, beq_iff_eq]

instance : IsTotal (String × String) IncludeLe where
  total a b := by
    rw [includeLe_iff, includeLe_iff]
    rcases pyStrLt_trichotomy a.1 b.1 with h | h | h
    · exact Or.inl (Or.inl h)
    · rcases pyStrLt_trichotomy a.2 b.2 with h2 | h2 | h2
      · exact Or.inl (Or.inr ⟨h, Or.inl h2⟩)
      · exact Or.inl (Or.inr ⟨h, Or.inr h2⟩)
      · exact Or.inr (Or.inr ⟨h.symm, Or.inl h2⟩)
    · exact Or.inr (Or.inl h)

instance : IsTrans (String × String) IncludeLe where
  trans a b c hab hbc := by
    rw [includeLe_iff] at hab hbc ⊢
    rcases hab with h1 | ⟨e1, h1⟩
    · rcases hbc with h2 | ⟨e2, _⟩
      · exact Or.inl (pyStrLt_trans h1 h2)
      · exact Or.inl (e2 ▸ h1)
    · rcases hbc with h2 | ⟨e2, h2⟩
      · exact Or.inl (e1 ▸ h2)
      · refine Or.inr ⟨e1.trans e2, ?_⟩
        rcases h1 with h1 | h1
        · rcases h2 with h2 | h2
          · exact Or.inl (pyStrLt_trans h1 h2)
          · exact Or.inl (h2 ▸ h1)
        · rcases h2 with h2 | h2
          · exact Or.inl (h1 ▸ h2)
          · exact Or.inr (h1.trans h2)

instance : IsAntisymm (String × String) IncludeLe where
  antisymm a b hab hba := by
    rw [includeLe_iff] at hab hba
    rcases hab with h1 | ⟨e1, h1⟩
    · rcases hba with h2 | ⟨e2, _⟩
      · exact absurd h2 (by simp [pyStrLt_asymm h1])
      · exact absurd h1 (by simp [e2, pyStrLt_irrefl])
    · rcases hba with h2 | ⟨_, h2⟩
      · exact absurd h2 (by simp [e1, pyStrLt_irrefl])
      · have e2 : a.2 = b.2 := by
          rcases h1 with h1 | h1
          · rcases h2 with h2 | h2
            · exact absurd h2 (by simp [pyStrLt_asymm h1])
            · exact h2.symm
          · exact h1
        exact Prod.ext e1 e2

/-- Sorting is canonical: permuting the input does not change the sorted
include list. -/
theorem sortIncludes_perm_eq {l₁ l₂ : List (String × String)} (h : l₁.Perm l₂) :
    sortIncludes l₁ = sortIncludes l₂ :=
  List.eq_of_perm_of_sorted
    (((List.perm_insertionSort IncludeLe l₁).trans h).trans
      (List.perm_insertionSort IncludeLe l₂).symm)
    (List.sorted_insertionSort IncludeLe l₁)
    (List.sorted_insertionSort IncludeLe l₂)

/-! ## Helper lemmas: the cache store -/

instance : IsTotal CacheHistoryEntry EntryRecentFirst where
  total a b := Nat.le_total b.timestamp a.timestamp

instance : IsTrans CacheHistoryEntry EntryRecentFirst where
  trans _ _ _ hab hbc := Nat.le_trans hbc hab

theorem sortEntries_sorted (l : List CacheHistoryEntry) :
    List.Sorted EntryRecentFirst (sortEntries l) :=
  List.sorted_insertionSort EntryRecentFirst l

theorem sortEntries_perm (l : List CacheHistoryEntry) : (sortEntries l).Perm l :=
  List.perm_insertionSort EntryRecentFirst l

/-- Membership after the cleanup fold implies membership before it:
`_cleanup_entry` only ever deletes files. -/
theorem mem_of_mem_foldl_cleanupEntry :
    ∀ (old : List CacheHistoryEntry) (fs : List String) (p : String),
      p ∈ old.foldl cleanupEntry fs → p ∈ fs
  | [], _, _, h => h
  | e :: es, fs, p, h => by
    have h' := mem_of_mem_foldl_cleanupEntry es (cleanupEntry fs e) p h
    simp only [cleanupEntry, removeFile, List.mem_filter] at h'
    exact h'.1.1

theorem not_mem_removeFile_self (fs : List String) (p : String) :
    p ∉ removeFile fs p := by
  simp [removeFile, List.mem_filter]

/-- Every entry processed by the cleanup fold has both of its backing files
deleted in the final file system. -/
theorem foldl_cleanupEntry_removes :
    ∀ (old : List CacheHistoryEntry) (fs : List String) (e : CacheHistoryEntry),
      e ∈ old →
      e.json_path ∉ old.foldl cleanupEntry fs ∧
        e.profile_path ∉ old.foldl cleanupEntry fs
  | [], _, _, h => absurd h (List.not_mem_nil _)
  | a :: as, fs, e, h => by
    rcases List.mem_cons.mp h with he | he
    · subst he
      constructor
      · intro hmem
        have h1 := mem_of_mem_foldl_cleanupEntry as (cleanupEntry fs e) _ hmem
        simp [cleanupEntry, removeFile, List.mem_filter] at h1
      · intro hmem
        have h1 := mem_of_mem_foldl_cleanupEntry as (cleanupEntry fs e) _ hmem
        simp [cleanupEntry, removeFile, List.mem_filter] at h1
    · exact foldl_cleanupEntry_removes as (cleanupEntry fs a) e he

theorem mem_of_mem_foldl_aliasCleanup :
    ∀ (old : List CacheHistoryEntry) (al : List (String × String)) (kv : String × String),
      kv ∈ old.foldl aliasCleanupStep al → kv ∈ al
  | [], _, _, h => h
  | e :: es, al, kv, h => by
    have h' := mem_of_mem_foldl_aliasCleanup es (aliasCleanupStep al e) kv h
    exact (List.mem_filter.mp h').1

/-- After the alias-cleanup fold, no surviving alias maps to an evicted
entry's build identity. -/
theorem foldl_aliasCleanup_removes :
    ∀ (old : List CacheHistoryEntry) (al : List (String × String))
      (e : CacheHistoryEntry), e ∈ old →
      ∀ kv ∈ old.foldl aliasCleanupStep al, kv.2 ≠ e.build_id
  | [], _, _, h, _, _ => absurd h (List.not_mem_nil _)
  | a :: as, al, e, h, kv, hkv => by
    rcases List.mem_cons.mp h with he | he
    · subst he
      have h1 := mem_of_mem_foldl_aliasCleanup as (aliasCleanupStep al e) kv hkv
      simpa using (List.mem_filter.mp h1).2
    · exact foldl_aliasCleanup_removes as (aliasCleanupStep al a) e he kv hkv

/-- `dict.get` misses exactly when no binding has the key. -/
theorem aliasGet_eq_none_iff (al : List (String × String)) (x : String) :
    aliasGet al x = none ↔ ∀ kv ∈ al, kv.1 ≠ x := by
  induction al with
  | nil => simp [aliasGet]
  | cons kv rest ih => by_cases h : kv.1 = x <;> simp [aliasGet, beq_iff_eq, h, ih]

theorem aliasGet_filter_of_none {al : List (String × String)} {x : String}
    (p : String × String → Bool) (h : aliasGet al x = none) :
    aliasGet (al.filter p) x = none := by
  rw [aliasGet_eq_none_iff] at h ⊢
  exact fun kv hkv => h kv (List.mem_filter.mp hkv).1

theorem aliasGet_foldl_aliasCleanup_of_none
    (old : List CacheHistoryEntry) {al : List (String × String)} {x : String}
    (h : aliasGet al x = none) :
    aliasGet (old.foldl aliasCleanupStep al) x = none := by
  induction old generalizing al with
  | nil => exact h
  | cons e es ih => exact ih (aliasGet_filter_of_none _ h)

/-- Setting a key makes `get` return the new value. -/
theorem aliasGet_aliasSet_self (al : List (String × String)) (k v : String) :
    aliasGet (aliasSet al k v) k = some v := by
  induction al with
  | nil => simp [aliasSet, aliasGet]
  | cons kv rest ih =>
    by_cases h : kv.1 = k
    · simp [aliasSet, aliasGet, beq_iff_eq, h]
    · simp [aliasSet, aliasGet, beq_iff_eq, h, ih]

/-- Setting a key leaves `get` on other keys unchanged. -/
theorem aliasGet_aliasSet_ne (al : List (String × String)) {k x : String}
    (v : String) (h : x ≠ k) :
    aliasGet (aliasSet al k v) x = aliasGet al x := by
  have hkx : k ≠ x := Ne.symm h
  induction al with
  | nil => simp [aliasSet, aliasGet, beq_iff_eq, hkx]
  | cons kv rest ih =>
    by_cases hk : kv.1 = k
    · simp [aliasSet, aliasGet, beq_iff_eq, hk, hkx]
    · by_cases hx : kv.1 = x
      · simp [aliasSet, aliasGet, beq_iff_eq, hk, hx, h]
      · simp [aliasSet, aliasGet, beq_iff_eq, hk, hx, ih]

theorem keysNodup_filter {al : List (String × String)} (p : String × String → Bool)
    (h : KeysNodup al) : KeysNodup (al.filter p) :=
  List.Nodup.sublist ((al.filter_sublist).map Prod.fst) h

/-- With unique keys, filtering keeps a binding exactly when the predicate
accepts it. -/
theorem aliasGet_filter {x v : String} (p : String × String → Bool) :
    ∀ {al : List (String × String)}, KeysNodup al → aliasGet al x = some v →
      aliasGet (al.filter p) x = if p (x, v) then some v else none := by
  intro al
  induction al with
  | nil => intro _ h; simp [aliasGet] at h
  | cons kv rest ih =>
    intro hk h
    obtain ⟨k1, v1⟩ := kv
    by_cases hx : k1 = x
    · subst hx
      have h2 : aliasGet ((k1, v1) :: rest) k1 = some v1 := by
        simp [aliasGet]
      have hv : v = v1 := by
        injection h.symm.trans h2
      subst hv
      have hnone : aliasGet rest k1 = none := by
        rw [aliasGet_eq_none_iff]
        intro kv' hkv' he
        have hm : kv'.1 ∈ rest.map Prod.fst := List.mem_map_of_mem Prod.fst hkv'
        rw [he] at hm
        exact (List.nodup_cons.mp hk).1 hm
      by_cases hp : p (k1, v)
      · simp [List.filter_cons, hp, aliasGet]
      · simp [List.filter_cons, hp, aliasGet_filter_of_none p hnone]
    · have h' : aliasGet rest x = some v := by
        simpa [aliasGet, beq_iff_eq, hx] using h
      have hk' : KeysNodup rest := (List.nodup_cons.mp hk).2
      by_cases hp : p (k1, v1)
      · simp [List.filter_cons, hp, aliasGet, beq_iff_eq, hx, ih hk' h']
      · simp [List.filter_cons, hp, ih hk' h']

/-! ## Helper lemmas: the components of `push` -/

theorem push_entries_eq (st : CacheHistory) (bid : String) (ck : Option String)
    (now : Nat) :
    (st.push bid ck now).entries = (pushSorted st bid ck now).take st.max_history := rfl

theorem pushEvicted_eq (st : CacheHistory) (bid : String) (ck : Option String)
    (now : Nat) :
    st.pushEvicted bid ck now = (pushSorted st bid ck now).drop st.max_history := rfl

theorem push_files_eq (st : CacheHistory) (bid : String) (ck : Option String)
    (now : Nat) :
    (st.push bid ck now).files =
      (st.pushEvicted bid ck now).foldl cleanupEntry
        (addFile (addFile st.files (pushEntry st bid ck now).json_path)
          (pushEntry st bid ck now).profile_path) := rfl

theorem push_aliases_eq (st : CacheHistory) (bid : String) (ck : Option String)
    (now : Nat) :
    (st.push bid ck now).aliases =
      (st.pushEvicted bid ck now).foldl aliasCleanupStep
        (match ck with
         | some k => aliasSet st.aliases k bid
         | none => st.aliases) := rfl

theorem push_max_history_eq (st : CacheHistory) (bid : String) (ck : Option String)
    (now : Nat) : (st.push bid ck now).max_history = st.max_history := rfl

/-- After a push the store holds at most `max_history` entries. -/
theorem push_length_le (st : CacheHistory) (bid : String) (ck : Option String)
    (now : Nat) : (st.push bid ck now).entries.length ≤ st.max_history := by
  rw [push_entries_eq, List.length_take]
  omega

/-- After a push the entry list is ordered newest-first. -/
theorem push_entries_sorted (st : CacheHistory) (bid : String) (ck : Option String)
    (now : Nat) : List.Sorted EntryRecentFirst (st.push bid ck now).entries := by
  rw [push_entries_eq]
  exact List.Pairwise.sublist (List.take_sublist _ _) (sortEntries_sorted _)

/-- A sorted entry list is strictly descending when its timestamps are
pairwise distinct. -/
theorem sorted_strict_of_nodup_timestamps {l : List CacheHistoryEntry}
    (hs : List.Sorted EntryRecentFirst l)
    (hn : (l.map CacheHistoryEntry.timestamp).Nodup) :
    List.Pairwise (fun a b : CacheHistoryEntry => b.timestamp < a.timestamp) l := by
  have hne : List.Pairwise
      (fun a b : CacheHistoryEntry => a.timestamp ≠ b.timestamp) l :=
    List.pairwise_map.mp hn
  exact (hs.and hne).imp (fun h => Nat.lt_of_le_of_ne h.1 (fun e => h.2 e.symm))

/-- The head of a sorted entry list carries a maximal timestamp. -/
theorem sorted_head_max {l : List CacheHistoryEntry} {p : CacheHistoryEntry}
    (hs : List.Sorted EntryRecentFirst l) (hp : l.head? = some p) :
    ∀ e ∈ l, e.timestamp ≤ p.timestamp := by
  cases l with
  | nil => simp at hp
  | cons x xs =>
    have hx : x = p := by simpa using hp
    subst hx
    intro e he
    rcases List.mem_cons.mp he with rfl | he
    · exact Nat.le_refl _
    · exact (List.pairwise_cons.mp hs).1 e he

/-- Everything in the post-push entry list is an old entry or the new one. -/
theorem mem_push_entries {st : CacheHistory} {bid : String} {ck : Option String}
    {now : Nat} {e : CacheHistoryEntry}
    (h : e ∈ (st.push bid ck now).entries) :
    e ∈ st.entries ∨ e = pushEntry st bid ck now := by
  rw [push_entries_eq] at h
  have h1 : e ∈ pushSorted st bid ck now := (List.take_sublist _ _).mem h
  have h2 := (sortEntries_perm _).mem_iff.mp h1
  rcases List.mem_append.mp h2 with h3 | h3
  · exact Or.inl (List.mem_of_mem_filter h3)
  · exact Or.inr (by simpa using h3)

/-- The pre-truncation list holds exactly one entry with the pushed id. -/
theorem pushSorted_countP (st : CacheHistory) (bid : String) (ck : Option String)
    (now : Nat) :
    (pushSorted st bid ck now).countP (fun e => e.build_id == bid) = 1 := by
  rw [pushSorted, (sortEntries_perm _).countP_eq, List.countP_append]
  have h0 : (st.entries.filter (fun e => e.build_id != bid)).countP
      (fun e => e.build_id == bid) = 0 := by
    rw [List.countP_eq_zero]
    intro e he
    have := (List.mem_filter.mp he).2
    simpa using (by simpa using this : e.build_id ≠ bid)
  rw [h0]
  simp [pushEntry]

/-- If the pushed id lands among the evicted entries, it is absent from the
kept entries. -/
theorem push_kept_no_bid_of_evicted {st : CacheHistory} {bid : String}
    {ck : Option String} {now : Nat}
    (h : ∃ e ∈ st.pushEvicted bid ck now, e.build_id = bid) :
    ∀ e ∈ (st.push bid ck now).entries, e.build_id ≠ bid := by
  have hsplit : (st.push bid ck now).entries ++ st.pushEvicted bid ck now =
      pushSorted st bid ck now := by
    rw [push_entries_eq, pushEvicted_eq]
    exact List.take_append_drop _ _
  have hcount := pushSorted_countP st bid ck now
  rw [← hsplit, List.countP_append] at hcount
  have hdrop : 0 < (st.pushEvicted bid ck now).countP (fun e => e.build_id == bid) := by
    rw [List.countP_pos_iff]
    rcases h with ⟨e, he, hbe⟩
    exact ⟨e, he, by simp [hbe]⟩
  have htake : (st.push bid ck now).entries.countP (fun e => e.build_id == bid) = 0 := by
    omega
  rw [List.countP_eq_zero] at htake
  intro e he hbe
  exact htake e he (by simp [hbe])

/-- Nodup build ids are preserved by `push` (the filter step removes the
pushed id before the new entry is appended). -/
theorem push_nodup {st : CacheHistory} (bid : String) (ck : Option String)
    (now : Nat) (h : (st.entries.map CacheHistoryEntry.build_id).Nodup) :
    ((st.push bid ck now).entries.map CacheHistoryEntry.build_id).Nodup := by
  have hfil : ((st.entries.filter (fun e => e.build_id != bid)).map
      CacheHistoryEntry.build_id).Nodup :=
    List.Nodup.sublist ((st.entries.filter_sublist).map _) h
  have hnot : bid ∉ (st.entries.filter (fun e => e.build_id != bid)).map
      CacheHistoryEntry.build_id := by
    intro hmem
    rcases List.mem_map.mp hmem with ⟨e, he, hbe⟩
    have := (List.mem_filter.mp he).2
    rw [hbe] at this
    simp at this
  have happ : (((st.entries.filter (fun e => e.build_id != bid)) ++
      [pushEntry st bid ck now]).map CacheHistoryEntry.build_id).Nodup := by
    rw [List.map_append]
    refine List.Nodup.append hfil (by simp) ?_
    intro x hx hx'
    have : x = bid := by simpa [pushEntry] using hx'
    exact hnot (this ▸ hx)
  have hperm : ((pushSorted st bid ck now).map CacheHistoryEntry.build_id).Nodup :=
    (((sortEntries_perm _).map _).nodup_iff).mpr happ
  rw [push_entries_eq, List.map_take]
  exact List.Nodup.sublist (List.take_sublist _ _) hperm

/-- Build ids are pairwise distinct in every state reachable through `push`. -/
theorem reachable_nodup {dir : String} {N : Nat} {st : CacheHistory}
    (h : CacheHistory.Reachable dir N st) :
    (st.entries.map CacheHistoryEntry.build_id).Nodup := by
  induction h with
  | init => simp [CacheHistory.initial]
  | push st bid ck now _ ih => exact push_nodup bid ck now ih

/-- Scanning for an id that no entry carries yields `None`. -/
theorem touchFirst_none {x : String} {now : Nat} :
    ∀ {l : List CacheHistoryEntry}, (∀ e ∈ l, e.build_id ≠ x) →
      (touchFirst x now l).1 = none
  | [], _ => rfl
  | e :: es, h => by
    have he : e.build_id ≠ x := h e (List.mem_cons_self e es)
    simp only [touchFirst, beq_iff_eq, if_neg he]
    exact touchFirst_none (fun e' he' => h e' (List.mem_cons_of_mem e he'))

/-- A binding produced by `aliasSet` is an old binding or the new pair. -/
theorem mem_aliasSet_cases {al : List (String × String)} {k v : String}
    {kv : String × String} (h : kv ∈ aliasSet al k v) : kv ∈ al ∨ kv = (k, v) := by
  induction al with
  | nil => simpa [aliasSet] using h
  | cons kv' rest ih =>
    by_cases hk : kv'.1 = k
    · simp only [aliasSet, beq_iff_eq, if_pos hk] at h
      rcases List.mem_cons.mp h with rfl | h2
      · exact Or.inr rfl
      · exact Or.inl (List.mem_cons_of_mem _ h2)
    · simp only [aliasSet, beq_iff_eq, if_neg hk] at h
      rcases List.mem_cons.mp h with rfl | h2
      · exact Or.inl (List.mem_cons_self _ _)
      · rcases ih h2 with h3 | h3
        · exact Or.inl (List.mem_cons_of_mem _ h3)
        · exact Or.inr h3

/-- Keys stay unique when a binding is set. -/
theorem keysNodup_aliasSet {al : List (String × String)} (k v : String)
    (h : KeysNodup al) : KeysNodup (aliasSet al k v) := by
  induction al with
  | nil => simp [aliasSet, KeysNodup]
  | cons kv rest ih =>
    have h1 := (List.nodup_cons.mp h).1
    have h2 := (List.nodup_cons.mp h).2
    by_cases hk : kv.1 = k
    · subst hk
      have hset : aliasSet (kv :: rest) kv.1 v = (kv.1, v) :: rest := by
        simp [aliasSet]
      unfold KeysNodup
      rw [hset, List.map_cons]
      exact List.nodup_cons.mpr ⟨by simpa using h1, h2⟩
    · simp only [aliasSet, beq_iff_eq, if_neg hk]
      unfold KeysNodup
      rw [List.map_cons]
      refine List.nodup_cons.mpr ⟨?_, ih h2⟩
      intro hmem
      rcases List.mem_map.mp hmem with ⟨kv', hkv', hfst⟩
      rcases mem_aliasSet_cases hkv' with h3 | h3
      · exact h1 (hfst ▸ List.mem_map_of_mem Prod.fst h3)
      · exact hk (by rw [← hfst, h3])

/-- Effect of the alias-cleanup fold on a present binding: it survives iff
its value is not among the evicted build ids. -/
theorem aliasGet_foldl_aliasCleanup (old : List CacheHistoryEntry) :
    ∀ {al : List (String × String)} {k v : String}, KeysNodup al →
      aliasGet al k = some v →
      aliasGet (old.foldl aliasCleanupStep al) k =
        if ∀ e ∈ old, v ≠ e.build_id then some v else none := by
  induction old with
  | nil =>
    intro al k v _ h
    simpa using h
  | cons e es ih =>
    intro al k v hk h
    by_cases hv : v = e.build_id
    · have hnone : aliasGet (aliasCleanupStep al e) k = none := by
        rw [aliasCleanupStep, aliasGet_filter _ hk h]
        simp [hv]
      rw [List.foldl_cons, aliasGet_foldl_aliasCleanup_of_none es hnone, if_neg]
      intro hall
      exact hall e (List.mem_cons_self e es) hv
    · have hsome : aliasGet (aliasCleanupStep al e) k = some v := by
        rw [aliasCleanupStep, aliasGet_filter _ hk h]
        simp [hv]
      have hk1 : KeysNodup (aliasCleanupStep al e) := keysNodup_filter _ hk
      rw [List.foldl_cons, ih hk1 hsome]
      by_cases hall : ∀ e' ∈ es, v ≠ e'.build_id
      · rw [if_pos hall, if_pos]
        intro e' he'
        rcases List.mem_cons.mp he' with rfl | he2
        · exact hv
        · exact hall e' he2
      · rw [if_neg hall, if_neg]
        intro hall2
        exact hall (fun e' he' => hall2 e' (List.mem_cons_of_mem e he'))

/-- The general alias-resolution fact behind the claim about `push` with a
`cache_key`: provided the key differs from the pushed identity, the store's
alias keys are unique, no alias is keyed by the identity itself, and no
entry carries the key as its identity, `lookup(key)` and
`lookup(identity)` agree after the push — whether or not the pushed entry
survived eviction. -/
theorem lookup_alias_eq_lookup_id (st : CacheHistory) (bid k : String)
    (now t : Nat) (hkb : k ≠ bid) (hkeys : KeysNodup st.aliases)
    (hbid : aliasGet st.aliases bid = none)
    (hkent : ∀ e ∈ st.entries, e.build_id ≠ k) :
    ((st.push bid (some k) now).lookup k t).1 =
      ((st.push bid (some k) now).lookup bid t).1 := by
  have haliases : (st.push bid (some k) now).aliases =
      (st.pushEvicted bid (some k) now).foldl aliasCleanupStep
        (aliasSet st.aliases k bid) := push_aliases_eq st bid (some k) now
  have hkeys' : KeysNodup (aliasSet st.aliases k bid) :=
    keysNodup_aliasSet k bid hkeys
  have hset : aliasGet (aliasSet st.aliases k bid) k = some bid :=
    aliasGet_aliasSet_self st.aliases k bid
  have hgetk : aliasGet (st.push bid (some k) now).aliases k =
      if ∀ e ∈ st.pushEvicted bid (some k) now, bid ≠ e.build_id
      then some bid else none := by
    rw [haliases]
    exact aliasGet_foldl_aliasCleanup _ hkeys' hset
  have hgetbid : aliasGet (st.push bid (some k) now).aliases bid = none := by
    rw [haliases]
    apply aliasGet_foldl_aliasCleanup_of_none
    rw [aliasGet_aliasSet_ne _ bid (Ne.symm hkb)]
    exact hbid
  have hentk : ∀ e ∈ (st.push bid (some k) now).entries, e.build_id ≠ k := by
    intro e he
    rcases mem_push_entries he with h1 | h1
    · exact hkent e h1
    · rw [h1]
      simpa [pushEntry] using Ne.symm hkb
  by_cases hall : ∀ e ∈ st.pushEvicted bid (some k) now, bid ≠ e.build_id
  · rw [if_pos hall] at hgetk
    simp only [CacheHistory.lookup, hgetk, hgetbid, Option.getD_some, Option.getD_none]
  · rw [if_neg hall] at hgetk
    have hex : ∃ e ∈ st.pushEvicted bid (some k) now, e.build_id = bid := by
      push_neg at hall
      rcases hall with ⟨e, he, hv⟩
      exact ⟨e, he, hv.symm⟩
    have hnob : ∀ e ∈ (st.push bid (some k) now).entries, e.build_id ≠ bid :=
      push_kept_no_bid_of_evicted hex
    simp only [CacheHistory.lookup, hgetk, hgetbid, Option.getD_none]
    rw [touchFirst_none hentk, touchFirst_none hnob]

/-! ## Helper lemmas: environment activation -/

/-- `activateStep` always writes the key of its pair. -/
theorem activateStep_eq_set (environ : List (String × String))
    (kv : String × String) :
    ∃ w, activateStep environ kv = aliasSet environ kv.1 w := by
  unfold activateStep
  by_cases hl : kv.1 ∈ LIST_LIKE_VARS
  · rw [if_pos hl]
    cases h : aliasGet environ kv.1 with
    | some old => exact ⟨kv.2 ++ ":" ++ old, rfl⟩
    | none => exact ⟨kv.2, rfl⟩
  · rw [if_neg hl]
    exact ⟨kv.2, rfl⟩

/-- `activateStep` leaves other keys alone. -/
theorem activateStep_get_ne (environ : List (String × String))
    {kv : String × String} {k : String} (h : k ≠ kv.1) :
    aliasGet (activateStep environ kv) k = aliasGet environ k := by
  rcases activateStep_eq_set environ kv with ⟨w, hw⟩
  rw [hw, aliasGet_aliasSet_ne _ w h]

/-- `activateStep` at its own key: prepend with `":"` for a path-like name
that is already present, overwrite otherwise. -/
theorem activateStep_get_self (environ : List (String × String))
    (kv : String × String) :
    aliasGet (activateStep environ kv) kv.1 =
      some (match aliasGet environ kv.1 with
        | some old => if kv.1 ∈ LIST_LIKE_VARS then kv.2 ++ ":" ++ old else kv.2
        | none => kv.2) := by
  unfold activateStep
  by_cases hl : kv.1 ∈ LIST_LIKE_VARS
  · rw [if_pos hl]
    cases h : aliasGet environ kv.1 with
    | some old => simp [aliasGet_aliasSet_self, hl]
    | none => simp [aliasGet_aliasSet_self, hl]
  · rw [if_neg hl]
    cases h : aliasGet environ kv.1 with
    | some old => simp [aliasGet_aliasSet_self, hl]
    | none => simp [aliasGet_aliasSet_self, hl]

/-- Variables not captured by the shell environment are untouched. -/
theorem activate_get_none :
    ∀ (env environ : List (String × String)) (k : String),
      aliasGet env k = none →
      aliasGet (activate env environ) k = aliasGet environ k
  | [], _, _, _ => rfl
  | kv :: rest, environ, k, h => by
    have h1 : ¬(kv.1 == k) = true := by
      intro hb
      simp [aliasGet, hb] at h
    have h2 : aliasGet rest k = none := by
      simpa [aliasGet, h1] using h
    have hne : k ≠ kv.1 := fun e => h1 (by simp [e])
    calc aliasGet (activate (kv :: rest) environ) k
        = aliasGet (activate rest (activateStep environ kv)) k := rfl
      _ = aliasGet (activateStep environ kv) k := activate_get_none rest _ k h2
      _ = aliasGet environ k := activateStep_get_ne environ hne

/-- Captured variables end up merged: prepended with `":"` for path-like
names already present in the process environment, overwritten otherwise. -/
theorem activate_get_some :
    ∀ (env environ : List (String × String)) (k v : String),
      (env.map Prod.fst).Nodup → aliasGet env k = some v →
      aliasGet (activate env environ) k =
        some (match aliasGet environ k with
          | some old => if k ∈ LIST_LIKE_VARS then v ++ ":" ++ old else v
          | none => v)
  | [], _, _, _, _, h => by simp [aliasGet] at h
  | kv :: rest, environ, k, v, hnd, h => by
    by_cases hk : kv.1 = k
    · have hv : v = kv.2 := by
        have : aliasGet (kv :: rest) k = some kv.2 := by simp [aliasGet, hk]
        injection h.symm.trans this
      subst hv
      subst hk
      have hrest : aliasGet rest kv.1 = none := by
        rw [aliasGet_eq_none_iff]
        intro kv' hkv' he
        exact (List.nodup_cons.mp hnd).1 (he ▸ List.mem_map_of_mem Prod.fst hkv')
      calc aliasGet (activate (kv :: rest) environ) kv.1
          = aliasGet (activateStep environ kv) kv.1 :=
            activate_get_none rest _ kv.1 hrest
        _ = _ := activateStep_get_self environ kv
    · have h2 : aliasGet rest k = some v := by
        simpa [aliasGet, beq_iff_eq, hk] using h
      have hnd2 : (rest.map Prod.fst).Nodup := (List.nodup_cons.mp hnd).2
      have hne : k ≠ kv.1 := fun e => hk e.symm
      calc aliasGet (activate (kv :: rest) environ) k
          = aliasGet (activate rest (activateStep environ kv)) k := rfl
        _ = some (match aliasGet (activateStep environ kv) k with
              | some old => if k ∈ LIST_LIKE_VARS then v ++ ":" ++ old else v
              | none => v) := activate_get_some rest _ k v hnd2 h2
        _ = _ := by rw [activateStep_get_ne environ hne]

/-! ## Helper lemmas: the feed flattens to full file contents -/

theorem flatten_includes_flatMap (fs : FileSystem) :
    ∀ (l : List (String × String)),
      (l.flatMap (fun nv => [utf8Bytes nv.1] ++ chunksOf 65536 (fs nv.2))).flatten =
        l.flatMap (fun nv => utf8Bytes nv.1 ++ fs nv.2)
  | [] => rfl
  | nv :: rest => by
    simp only [List.flatMap_cons, List.flatten_append, List.flatten_cons,
      List.flatten_nil, chunksOf_flatten, flatten_includes_flatMap fs rest,
      List.append_nil, List.append_assoc]

/-! ## The verified claims -/

/-- C1: the build identity is deterministic.  (i) Reading `build_id` twice on
the same in-memory `NixBuild` yields the same digest — the memoization slot
makes the second read return the stored value even if the file system has
changed in between.  (ii) For pure inputs (no `file`, no `include`
mappings), the digest does not depend on the file system at all, so any two
requests with identical pure inputs agree.  (iii) Permuting only the order
of the `(name, path)` include mappings leaves the digest unchanged, because
they are sorted before hashing. -/
theorem build_id_deterministic :
    (∀ (digest : List Nat → String) (b : NixBuildState) (fs fs' : FileSystem),
      (readBuildId digest (readBuildId digest b fs).2 fs').1 =
        (readBuildId digest b fs).1)
    ∧ (∀ (digest : List Nat → String) (p : BuildParams) (fs fs' : FileSystem),
        p.file = none → p.includes = [] →
        getBuildId digest p fs = getBuildId digest p fs')
    ∧ (∀ (digest : List Nat → String) (p q : BuildParams) (fs : FileSystem),
        p.includes.Perm q.includes → p.file = q.file →
        p.installable = q.installable → p.ref = q.ref → p.expr = q.expr →
        p.impure = q.impure →
        getBuildId digest p fs = getBuildId digest q fs) := by
  refine ⟨?_, ?_, ?_⟩
  · intro digest b fs fs'
    cases h : b.cachedId <;> simp [readBuildId, h]
  · intro digest p fs fs' h1 h2
    simp [getBuildId, buildIdFeed, buildIdUpdates, h1, h2, sortIncludes,
      List.insertionSort]
  · intro digest p q fs hperm hf hi hr he him
    simp only [getBuildId, buildIdFeed, buildIdUpdates, hf, hi, hr, he, him,
      sortIncludes_perm_eq hperm]

/-- Witness for C1: two concrete include lists that are permutations of each
other hash identically. -/
theorem build_id_deterministic_witness :
    (([("b", "q"), ("a", "p")] : List (String × String)).Perm [("a", "p"), ("b", "q")])
    ∧ getBuildId (fun _ => "d")
        ⟨none, none, none, none, false, [("b", "q"), ("a", "p")]⟩ (fun _ => []) =
      getBuildId (fun _ => "d")
        ⟨none, none, none, none, false, [("a", "p"), ("b", "q")]⟩ (fun _ => []) :=
  ⟨by decide,
   build_id_deterministic.2.2 (fun _ => "d")
     ⟨none, none, none, none, false, [("b", "q"), ("a", "p")]⟩
     ⟨none, none, none, none, false, [("a", "p"), ("b", "q")]⟩ (fun _ => [])
     (by decide) rfl rfl rfl rfl rfl⟩

/-- C2: bounded history.  (i) After any push at most `max_history` entries
remain.  (ii) Every evicted entry has its `json_path` and `profile_path`
deleted from the file system (removal is a no-op on missing paths, so
already-missing files are tolerated) and every alias mapping to its build
identity removed.  (iii) Concretely, pushing five distinct builds with
`max_history = 3` leaves exactly the three most recent entries, newest
first, and only their six artifact files on disk. -/
theorem cache_bounded_history :
    (∀ (st : CacheHistory) (bid : String) (ck : Option String) (now : Nat),
      (st.push bid ck now).entries.length ≤ st.max_history)
    ∧ (∀ (st : CacheHistory) (bid : String) (ck : Option String) (now : Nat)
        (e : CacheHistoryEntry), e ∈ st.pushEvicted bid ck now →
        e.json_path ∉ (st.push bid ck now).files ∧
        e.profile_path ∉ (st.push bid ck now).files ∧
        ∀ kv ∈ (st.push bid ck now).aliases, kv.2 ≠ e.build_id)
    ∧ ((((((((CacheHistory.initial "c" 3).push "b1" none 1).push "b2" none 2).push
          "b3" none 3).push "b4" none 4).push "b5" none 5).entries.map
            CacheHistoryEntry.build_id = ["b5", "b4", "b3"])
       ∧ ((((((CacheHistory.initial "c" 3).push "b1" none 1).push "b2" none 2).push
          "b3" none 3).push "b4" none 4).push "b5" none 5).entries.map
            CacheHistoryEntry.timestamp = [5, 4, 3]
       ∧ ((((((CacheHistory.initial "c" 3).push "b1" none 1).push "b2" none 2).push
          "b3" none 3).push "b4" none 4).push "b5" none 5).files =
            ["c/b3.json", "c/b3-profile", "c/b4.json", "c/b4-profile",
             "c/b5.json", "c/b5-profile"]) := by
  refine ⟨push_length_le, ?_, by decide, by decide, by decide⟩
  intro st bid ck now e he
  refine ⟨?_, ?_, ?_⟩
  · rw [push_files_eq]
    exact (foldl_cleanupEntry_removes _ _ e he).1
  · rw [push_files_eq]
    exact (foldl_cleanupEntry_removes _ _ e he).2
  · rw [push_aliases_eq]
    exact foldl_aliasCleanup_removes _ _ e he

/-- Witness for C2: with `max_history = 1` the first pushed build is evicted
by the second push and both of its artifact files are gone. -/
theorem cache_bounded_history_witness :
    ((⟨"x", 1, "c/x.json", "c/x-profile"⟩ : CacheHistoryEntry) ∈
      ((CacheHistory.initial "c" 1).push "x" none 1).pushEvicted "y" none 2)
    ∧ ("c/x.json" ∉ (((CacheHistory.initial "c" 1).push "x" none 1).push "y" none 2).files
       ∧ "c/x-profile" ∉ (((CacheHistory.initial "c" 1).push "x" none 1).push "y" none 2).files
       ∧ ∀ kv ∈ (((CacheHistory.initial "c" 1).push "x" none 1).push "y" none 2).aliases,
           kv.2 ≠ (⟨"x", 1, "c/x.json", "c/x-profile"⟩ : CacheHistoryEntry).build_id) :=
  ⟨by decide,
   cache_bounded_history.2.1 ((CacheHistory.initial "c" 1).push "x" none 1) "y" none 2
     ⟨"x", 1, "c/x.json", "c/x-profile"⟩ (by decide)⟩

/-- C3 counterexample: the pure/impure marker fed to the hash is NOT a
one-byte tag.  The code feeds the ASCII strings `b"pure"` (4 bytes) and
`b"impure"` (6 bytes): two otherwise-identical trivial requests produce
feeds of lengths 31 and 33, while a one-byte tag followed by the common
remainder (the three placeholder strings, 27 bytes) would make both feeds
28 bytes long; the feed of the pure request indeed starts with the four
bytes of `"pure"`. -/
theorem build_id_tag_counterexample :
    (buildIdFeed {} (fun _ => [])).length = 31
    ∧ (buildIdFeed { impure := true } (fun _ => [])).length = 33
    ∧ (buildIdFeed {} (fun _ => [])).take 4 = utf8Bytes "pure"
    ∧ (utf8Bytes "pure").length = 4
    ∧ (utf8Bytes "impure").length = 6
    ∧ (utf8Bytes "no-installable" ++ (utf8Bytes "no-ref" ++ utf8Bytes "no-expr")).length = 27 := by
  refine ⟨by decide, by decide, by decide, by decide, by decide, by decide⟩

/-- C3 as amended: the digest is the hex digest of the byte feed assembled
in this fixed order — the multi-byte ASCII tag `"pure"`/`"impure"`; the full
contents of the referenced file when present (the bounded 256-byte chunked
read reassembles to exactly the contents); for each include entry in sorted
`(name, path)` order, the name's bytes followed by the full contents of its
file (65536-byte chunks, likewise reassembled); then the `installable`,
`ref` and `expr` strings, each replaced by its fixed placeholder when
absent. -/
theorem build_id_feed_structure :
    (∀ (p : BuildParams) (fs : FileSystem),
      buildIdFeed p fs =
        (if p.impure then utf8Bytes "impure" else utf8Bytes "pure")
          ++ (match p.file with | some f => fs f | none => [])
          ++ (sortIncludes p.includes).flatMap (fun nv => utf8Bytes nv.1 ++ fs nv.2)
          ++ (utf8Bytes (p.installable.getD "no-installable")
              ++ (utf8Bytes (p.ref.getD "no-ref") ++ utf8Bytes (p.expr.getD "no-expr"))))
    ∧ (∀ (digest : List Nat → String) (p : BuildParams) (fs : FileSystem),
        getBuildId digest p fs = digest (buildIdFeed p fs)) := by
  refine ⟨?_, fun _ _ _ => rfl⟩
  intro p fs
  rw [buildIdFeed, buildIdUpdates]
  simp only [List.flatten_append, List.flatten_cons, List.flatten_nil, List.append_nil,
    flatten_includes_flatMap, List.append_assoc]
  cases hf : p.file with
  | none => simp
  | some f => simp [chunksOf_flatten]

/-- C4: alias resolution.  (i) In general, after `push(build, cache_key=k)`
with `k` different from the build identity (in a store whose alias keys are
unique, with no alias keyed by the identity itself and no entry whose
identity equals `k`), `lookup(k)` resolves the alias and returns the same
result as `lookup(identity)` — whether or not the pushed entry survived
truncation.  (ii) Concretely, after pushing `"X"` under alias `"foo"` both
lookups return the same entry; (iii) when a later push evicts that entry
(`max_history = 1`), the `"foo"` alias is removed and `lookup("foo")`
returns the not-found sentinel `None`. -/
theorem alias_resolution :
    (∀ (st : CacheHistory) (bid k : String) (now t : Nat),
      k ≠ bid → KeysNodup st.aliases → aliasGet st.aliases bid = none →
      (∀ e ∈ st.entries, e.build_id ≠ k) →
      ((st.push bid (some k) now).lookup k t).1 =
        ((st.push bid (some k) now).lookup bid t).1)
    ∧ ((((CacheHistory.initial "c" 2).push "X" (some "foo") 1).lookup "foo" 2).1 =
          some ⟨"X", 2, "c/foo.json", "c/foo-profile"⟩
       ∧ (((CacheHistory.initial "c" 2).push "X" (some "foo") 1).lookup "X" 2).1 =
          some ⟨"X", 2, "c/foo.json", "c/foo-profile"⟩)
    ∧ (((((CacheHistory.initial "c" 1).push "X" (some "foo") 1).push "Y" none 2).aliases = [])
       ∧ (((((CacheHistory.initial "c" 1).push "X" (some "foo") 1).push "Y" none 2).lookup
            "foo" 5).1 = none)) :=
  ⟨fun st bid k now t h1 h2 h3 h4 => lookup_alias_eq_lookup_id st bid k now t h1 h2 h3 h4,
   ⟨by decide, by decide⟩, ⟨by decide, by decide⟩⟩

/-- Witness for C4: the general alias/identity lookup agreement, applied to
a fresh store. -/
theorem alias_resolution_witness :
    (("foo" : String) ≠ "X")
    ∧ ((((CacheHistory.initial "c" 2).push "X" (some "foo") 1).lookup "foo" 2).1 =
        (((CacheHistory.initial "c" 2).push "X" (some "foo") 1).lookup "X" 2).1) :=
  ⟨by decide,
   alias_resolution.1 (CacheHistory.initial "c" 2) "X" "foo" 1 2
     (by decide) (by decide) (by decide) (by decide)⟩

/-- C5 counterexample: `get`/`lookup` refresh the hit entry's timestamp in
place WITHOUT re-sorting, so the claimed invariant fails after a lookup.
Pushing `"A"` at time 1 and `"B"` at time 2 and then looking up `"A"` at
time 3 leaves the timestamps in order `[2, 3]` — not descending — and
`peek()` returns the entry with timestamp 2 although an entry with the
strictly greater timestamp 3 is present. -/
theorem timestamp_order_counterexample :
    ((((((CacheHistory.initial "c" 3).push "A" none 1).push "B" none 2).lookup "A" 3).2).entries.map
        CacheHistoryEntry.timestamp = [2, 3])
    ∧ ¬ List.Sorted EntryRecentFirst
        (((((CacheHistory.initial "c" 3).push "A" none 1).push "B" none 2).lookup "A" 3).2).entries
    ∧ ((((((CacheHistory.initial "c" 3).push "A" none 1).push "B" none 2).lookup "A" 3).2).peek.map
        CacheHistoryEntry.timestamp = some 2) :=
  ⟨by decide, by decide, by decide⟩

/-- C5 as amended: after a `push` the entry list is in descending-timestamp
order — strictly so whenever the timestamps are pairwise distinct — and
`peek()` returns an entry of maximal timestamp.  `get` and `lookup` refresh
the hit entry's timestamp in place without re-sorting, so the order can be
broken until the next push (see the counterexample). -/
theorem entries_sorted_after_push :
    (∀ (st : CacheHistory) (bid : String) (ck : Option String) (now : Nat),
      List.Sorted EntryRecentFirst (st.push bid ck now).entries)
    ∧ (∀ (st : CacheHistory) (bid : String) (ck : Option String) (now : Nat),
        ((st.push bid ck now).entries.map CacheHistoryEntry.timestamp).Nodup →
        List.Pairwise (fun a b : CacheHistoryEntry => b.timestamp < a.timestamp)
          (st.push bid ck now).entries)
    ∧ (∀ (st : CacheHistory) (bid : String) (ck : Option String) (now : Nat)
        (p : CacheHistoryEntry), (st.push bid ck now).peek = some p →
        ∀ e ∈ (st.push bid ck now).entries, e.timestamp ≤ p.timestamp) :=
  ⟨push_entries_sorted,
   fun st bid ck now h =>
     sorted_strict_of_nodup_timestamps (push_entries_sorted st bid ck now) h,
   fun st bid ck now _ hp => sorted_head_max (push_entries_sorted st bid ck now) hp⟩

/-- Witness for C5 (amended): after pushing `"A"` at 1 and `"B"` at 2,
`peek` returns the `"B"` entry and every entry's timestamp is at most 2. -/
theorem entries_sorted_after_push_witness :
    ((((CacheHistory.initial "c" 3).push "A" none 1).push "B" none 2).peek =
        some ⟨"B", 2, "c/B.json", "c/B-profile"⟩)
    ∧ ((⟨"A", 1, "c/A.json", "c/A-profile"⟩ : CacheHistoryEntry) ∈
        (((CacheHistory.initial "c" 3).push "A" none 1).push "B" none 2).entries)
    ∧ (⟨"A", 1, "c/A.json", "c/A-profile"⟩ : CacheHistoryEntry).timestamp ≤
        (⟨"B", 2, "c/B.json", "c/B-profile"⟩ : CacheHistoryEntry).timestamp :=
  ⟨by decide, by decide,
   entries_sorted_after_push.2.2 ((CacheHistory.initial "c" 3).push "A" none 1) "B" none 2
     ⟨"B", 2, "c/B.json", "c/B-profile"⟩ (by decide)
     ⟨"A", 1, "c/A.json", "c/A-profile"⟩ (by decide)⟩

/-- C6: replace, not duplicate.  (i) The list assembled by `push` before
truncation is a permutation of "the old entries with every entry carrying
the pushed identity removed, followed by the single new entry".  (ii) `push`
preserves pairwise-distinct build identities, and (iii) every state
reachable from a fresh store through `push` alone has pairwise-distinct
build identities — no reachable state holds two entries with the same
identity. -/
theorem push_replace_no_duplicates :
    (∀ (st : CacheHistory) (bid : String) (ck : Option String) (now : Nat),
      (pushSorted st bid ck now).Perm
        ((st.entries.filter (fun e => e.build_id != bid)) ++ [pushEntry st bid ck now]))
    ∧ (∀ (st : CacheHistory) (bid : String) (ck : Option String) (now : Nat),
        (st.entries.map CacheHistoryEntry.build_id).Nodup →
        ((st.push bid ck now).entries.map CacheHistoryEntry.build_id).Nodup)
    ∧ (∀ (dir : String) (N : Nat) (st : CacheHistory),
        CacheHistory.Reachable dir N st →
        (st.entries.map CacheHistoryEntry.build_id).Nodup) :=
  ⟨fun _ _ _ _ => sortEntries_perm _,
   fun _ bid ck now h => push_nodup bid ck now h,
   fun _ _ _ h => reachable_nodup h⟩

/-- Witness for C6: pushing `"A"` twice into a fresh store keeps the ids
duplicate-free. -/
theorem push_replace_no_duplicates_witness :
    (((((CacheHistory.initial "c" 3).push "A" none 1).entries.map
        CacheHistoryEntry.build_id).Nodup)
    ∧ (((((CacheHistory.initial "c" 3).push "A" none 1).push "A" none 2).entries.map
        CacheHistoryEntry.build_id).Nodup)) :=
  ⟨by decide,
   push_replace_no_duplicates.2.1 ((CacheHistory.initial "c" 3).push "A" none 1) "A" none 2
     (by decide)⟩

/-- C7: the string-serialization boundary of `dumps`.  A string is rendered
as the indented raw block — two single quotes, a newline, the text indented
by one indent unit (`textwrap.indent` over the full `str.splitlines` line
boundaries, which prefixes every line holding a non-whitespace character
and leaves empty or all-whitespace lines untouched, with whitespace in the
Unicode sense of `str.strip()`), a newline, two closing single quotes —
exactly when the string contains a newline or a double-quote character;
every other string is wrapped in double quotes with no additional escaping.
The concrete cases pin the shapes, including a `"\r"` line boundary inside
the block and a line holding only a NO-BREAK SPACE, which `textwrap.indent`
leaves un-indented. -/
theorem dumps_string_boundary :
    (∀ s : String,
      dumps (.str s) =
        if s.data.contains '\n' || s.data.contains '"' then
          "''\n" ++ textwrapIndent nixIndentUnit s ++ "\n''"
        else "\"" ++ s ++ "\"")
    ∧ dumps (.str "a\nb") = "''\n  a\n  b\n''"
    ∧ dumps (.str "say \"hi\"") = "''\n  say \"hi\"\n''"
    ∧ dumps (.str "a\rb\n") = "''\n  a\r  b\n\n''"
    ∧ dumps (.str "a\n\u00A0\nb") = "''\n  a\n\u00A0\n  b\n''"
    ∧ dumps (.str "plain text") = "\"plain text\"" :=
  ⟨fun s => by simp only [dumps]; rfl, by decide, by decide, by decide, by decide,
   by decide⟩

/-- C8: `CacheHistory._load` accepts both history schemata — a bare JSON
list of entries (legacy; aliases empty) and an object with optional
`entries` and `aliases` fields — and initializes to the empty state instead
of raising when the file is missing or `json.load` fails to parse it. -/
theorem load_history_fail_soft :
    (∀ es, loadHistory (.jsonList es) = some (es, []))
    ∧ (∀ es al, loadHistory (.jsonObject (some es) (some al)) = some (es, al))
    ∧ (∀ es, loadHistory (.jsonObject (some es) none) = some (es, []))
    ∧ (∀ al, loadHistory (.jsonObject none (some al)) = some ([], al))
    ∧ loadHistory .unparseable = some ([], [])
    ∧ loadHistory .absent = some ([], []) :=
  ⟨fun _ => rfl, fun _ _ => rfl, fun _ => rfl, fun _ => rfl, rfl, rfl⟩

/-- C9: `activate` merges the captured environment into the process
environment.  A captured variable whose name is in `LIST_LIKE_VARS` and
which already exists in the process environment gets the new value
prepended to the old with the `":"` path separator (the platform
path-separator convention on the POSIX platforms Nix runs on); every other
captured variable is overwritten outright, and uncaptured variables are
untouched. -/
theorem activate_merge_semantics :
    (∀ (env environ : List (String × String)) (k v : String),
      (env.map Prod.fst).Nodup → aliasGet env k = some v →
      aliasGet (activate env environ) k =
        some (match aliasGet environ k with
          | some old => if k ∈ LIST_LIKE_VARS then v ++ ":" ++ old else v
          | none => v))
    ∧ (∀ (env environ : List (String × String)) (k : String),
        aliasGet env k = none →
        aliasGet (activate env environ) k = aliasGet environ k) :=
  ⟨activate_get_some, activate_get_none⟩

/-- Witness for C9: `PATH` is prepended with `":"`, and the non-path-like
captured variable `FOO` would be overwritten. -/
theorem activate_merge_semantics_witness :
    ((([("PATH", "/nix/bin"), ("FOO", "bar")] : List (String × String)).map Prod.fst).Nodup
    ∧ aliasGet [("PATH", "/nix/bin"), ("FOO", "bar")] "PATH" = some "/nix/bin"
    ∧ aliasGet (activate [("PATH", "/nix/bin"), ("FOO", "bar")]
        [("PATH", "/usr/bin"), ("BAZ", "z")]) "PATH" = some "/nix/bin:/usr/bin") :=
  ⟨by decide, by decide,
   (activate_merge_semantics.1 [("PATH", "/nix/bin"), ("FOO", "bar")]
     [("PATH", "/usr/bin"), ("BAZ", "z")] "PATH" "/nix/bin"
     (by decide) (by decide)).trans (by decide)⟩

/-- C10: an absent `expr` (resp. `ref`, `installable`) parameter and one
explicitly set to the literal placeholder `"no-expr"` (resp. `"no-ref"`,
`"no-installable"`) produce byte-identical hash feeds, hence the same
digest for every digest function: the cache cannot distinguish the two
requests. -/
theorem placeholder_collision :
    ∀ (digest : List Nat → String) (p : BuildParams) (fs : FileSystem),
      getBuildId digest { p with expr := none } fs =
        getBuildId digest { p with expr := some "no-expr" } fs
      ∧ getBuildId digest { p with ref := none } fs =
        getBuildId digest { p with ref := some "no-ref" } fs
      ∧ getBuildId digest { p with installable := none } fs =
        getBuildId digest { p with installable := some "no-installable" } fs :=
  fun _ _ _ => ⟨rfl, rfl, rfl⟩
